import Mathlib

/-!
Verification development for the odoo-manager control plane.

The definitions below are a shallow embedding of the Go sources:
Go strings are modelled as Lean String or List Char, the SQLite-backed
project store as a list of rows, Docker daemon answers as explicit data,
and each HTTP handler or background goroutine as a pure function from its
inputs (decoded request, store contents, daemon answers) to its outputs
(response, new store contents, published events).
-/

namespace OdooManager

/-! ## Go string helpers (strings package) -/

/-- Character class of Go unicode.IsSpace: U+0009..U+000D, U+0020, U+0085,
U+00A0, U+1680, U+2000..U+200A, U+2028, U+2029, U+202F, U+205F, U+3000. -/
def isGoSpace (c : Char) : Bool :=
  c == ' ' || c == '\t' || c == '\n' || c.toNat == 11 || c.toNat == 12 || c == '\r' ||
  c.toNat == 133 || c.toNat == 160 || c.toNat == 5760 ||
  (8192 ≤ c.toNat && c.toNat ≤ 8202) || c.toNat == 8232 || c.toNat == 8233 ||
  c.toNat == 8239 || c.toNat == 8287 || c.toNat == 12288

/-- Drop trailing characters satisfying p. -/
def dropTrailing (p : Char → Bool) : List Char → List Char
  | [] => []
  | c :: cs =>
    match dropTrailing p cs with
    | [] => if p c then [] else [c]
    | r => c :: r

/-- Go strings.TrimSpace. -/
def goTrimSpace (l : List Char) : List Char :=
  dropTrailing isGoSpace (l.dropWhile isGoSpace)

/-- Go strings.HasPrefix on rune lists. -/
def goStartsWith : List Char → List Char → Bool
  | _, [] => true
  | [], _ :: _ => false
  | c :: cs, p :: ps => c == p && goStartsWith cs ps

/-- Go strings.Split with a one-rune separator. Never returns the empty
list; splitting the empty string yields one empty piece, as in Go. -/
def splitOnChar (sep : Char) : List Char → List (List Char)
  | [] => [[]]
  | c :: cs =>
    match splitOnChar sep cs with
    | [] => [[]]
    | h :: t => if c == sep then [] :: h :: t else (c :: h) :: t

/-- Go strings.SplitN(s, sep, 2) with a one-rune separator: none when the
separator does not occur (Go returns a one-element slice), otherwise the
pieces before and after its first occurrence. -/
def splitN2 (sep : Char) : List Char → Option (List Char × List Char)
  | [] => none
  | c :: cs =>
    if c == sep then some ([], cs)
    else
      match splitN2 sep cs with
      | none => none
      | some (a, b) => some (c :: a, b)

/-- Go strings.Join. -/
def joinSep (sep : List Char) : List (List Char) → List Char
  | [] => []
  | [x] => x
  | x :: y :: t => x ++ sep ++ joinSep sep (y :: t)

/-- Numeric value of a digit string. -/
def digitsToNat (l : List Char) : Nat :=
  l.foldl (fun a c => a * 10 + (c.toNat - 48)) 0

/-- Split an optional leading sign off an integer literal. -/
def signSplit : List Char → Int × List Char
  | '+' :: r => (1, r)
  | '-' :: r => (-1, r)
  | l => (1, l)

/-- Clamp to the 64-bit two-complement range, as Go strconv.ParseInt does
on range errors (the clamped value is returned together with ErrRange). -/
def clampInt64 (n : Int) : Int :=
  max (-9223372036854775808) (min 9223372036854775807 n)

/-- Ideal (unbounded) integer parse: optional sign followed by at least
one digit; none otherwise. -/
def parseIntOpt (s : String) : Option Int :=
  let p := signSplit s.toList
  if p.2 ≠ [] ∧ p.2.all Char.isDigit then some (p.1 * digitsToNat p.2) else none

/-- Go strconv.Atoi as used by the callers that discard the error: the
parsed value (clamped to int64 on overflow, with the error ignored), and 0
on a syntax error. -/
def goAtoi (s : String) : Int :=
  match parseIntOpt s with
  | some n => clampInt64 n
  | none => 0

/-! ## Store data model (internal/store)

The Project row follows the store sources: the nine columns of the SQLite
schema of migration 1 plus the columns added by migrations 3 to 6
(git_repo_url, git_repo_branch, enterprise_enabled, design_themes_enabled),
which the handlers read. Timestamps are modelled as abstract Nat ticks. -/

structure Project where
  id : String
  name : String
  description : String
  odooVersion : String
  postgresVersion : String
  port : Int
  status : String
  gitRepoURL : String
  gitRepoBranch : String
  enterpriseEnabled : Bool
  designThemesEnabled : Bool
  createdAt : Nat
  updatedAt : Nat
deriving DecidableEq

/-- The Go zero value of store.Project, which is what encoding/json yields
for every field a request body omits. -/
def zeroProject : Project :=
  ⟨"", "", "", "", "", 0, "", "", "", false, false, 0, 0⟩

/-- The status enumeration of the specification:
stopped, running, error, plus the six transient statuses. -/
def validStatus (s : String) : Bool :=
  ["stopped", "running", "error", "creating", "starting",
   "stopping", "deleting", "updating", "updating-repo"].contains s

/-- ProjectStore.NameExists: SELECT COUNT(*) WHERE name = ?. -/
def NameExists (st : List Project) (name : String) : Bool :=
  st.any (fun q => q.name == name)

/-- ProjectStore.PortExists: SELECT COUNT(*) WHERE port = ?. -/
def PortExists (st : List Project) (port : Int) : Bool :=
  st.any (fun q => q.port == port)

/-- ProjectStore.Create: INSERT after stamping created_at and updated_at.
The UNIQUE constraints of migration 2 (name, port) plus the id primary key
make the insert fail on a duplicate. -/
def storeCreate (now : Nat) (st : List Project) (p : Project) :
    Except Unit (List Project) :=
  if st.any (fun q => q.id == p.id || q.name == p.name || q.port == p.port) then
    .error ()
  else
    .ok (st ++ [{ p with createdAt := now, updatedAt := now }])

/-- ProjectStore.Update: UPDATE projects SET name, description,
odoo_version, postgres_version, port, status, updated_at WHERE id = ?;
sql.ErrNoRows when no row was affected. -/
def storeUpdate (now : Nat) (st : List Project) (p : Project) :
    Except Unit (List Project) :=
  if st.any (fun q => q.id == p.id) then
    .ok (st.map (fun q =>
      if q.id == p.id then
        { q with
          name := p.name, description := p.description,
          odooVersion := p.odooVersion, postgresVersion := p.postgresVersion,
          port := p.port, status := p.status, updatedAt := now }
      else q))
  else .error ()

/-- ProjectStore.Get: the row with the given id, if any. -/
def storeGet (st : List Project) (id : String) : Option Project :=
  st.find? (fun q => q.id == id)

/-! ## DockerOps (internal/docker) -/

/-- postgresImage from internal/docker/docker.go: the pgvector image for
Odoo major version 19 and later, the stock postgres image otherwise. The
major version is parts[0] of strings.SplitN(odooVersion, ".", 2) run
through strconv.Atoi with the error discarded. -/
def postgresImage (odooVersion pgVersion : String) : String :=
  let parts0 : String :=
    match splitN2 '.' odooVersion.toList with
    | none => odooVersion
    | some p => String.mk p.1
  let odooMajor := goAtoi parts0
  if 19 ≤ odooMajor then "pgvector/pgvector:pg" ++ pgVersion ++ "-trixie"
  else "postgres:" ++ pgVersion

/-- The Image field of the postgres container config built in
Manager.CreateProject. -/
def CreateProjectPostgresImage (p : Project) : String :=
  postgresImage p.odooVersion p.postgresVersion

/-- The Image field of the postgres container config built in
Manager.StartProject. -/
def StartProjectPostgresImage (p : Project) : String :=
  postgresImage p.odooVersion p.postgresVersion

/-- Modelled from the spec wording for comparison: the major component of
odoo_version is the substring before the first dot, parsed as an
(unbounded) integer; at 19 or above the image is pgvector. -/
def specMajorGE19 (v : String) : Bool :=
  match parseIntOpt (String.mk (v.toList.takeWhile (fun c => !(c == '.')))) with
  | some n => decide (19 ≤ n)
  | none => false

/-- Modelled from the spec wording for comparison with postgresImage. -/
def specPostgresImage (v pg : String) : String :=
  if specMajorGE19 v then "pgvector/pgvector:pg" ++ pg ++ "-trixie"
  else "postgres:" ++ pg

/-- Outcome of ContainerInspect on the odoo container, as it is
discriminated by Manager.GetProjectStatus: not-found error, success with
the running flag, or any other error. -/
inductive InspectResult where
  | notFound
  | ok (running : Bool)
  | otherError
deriving DecidableEq

/-- Manager.GetProjectStatus: the returned status string together with
whether the returned error is non-nil. -/
def GetProjectStatus : InspectResult → String × Bool
  | .notFound => ("stopped", false)
  | .otherError => ("error", true)
  | .ok true => ("running", false)
  | .ok false => ("stopped", false)

/-- The six transient statuses of the switch in Manager.ReconcileStatus. -/
def transientStatus (s : String) : Bool :=
  ["creating", "deleting", "starting", "stopping",
   "updating", "updating-repo"].contains s

/-- Manager.ReconcileStatus: keep a transient stored status, otherwise
report GetProjectStatus, collapsing an inspect error to error. -/
def ReconcileStatus (stored : String) (r : InspectResult) : String :=
  if transientStatus stored then stored
  else
    let sr := GetProjectStatus r
    if sr.2 then "error" else sr.1

/-- Modelled from the spec wording of the GetProjectStatus contract:
not-found maps to stopped, running to running, else stopped, inspect error
to error. -/
def specGetProjectStatus : InspectResult → String
  | .notFound => "stopped"
  | .otherError => "error"
  | .ok true => "running"
  | .ok false => "stopped"

/-- Modelled from the spec wording of the ReconcileStatus contract. -/
def specReconcileStatus (stored : String) (r : InspectResult) : String :=
  if transientStatus stored then stored else specGetProjectStatus r

/-! ## Maintenance sweeps (internal/docker) -/

/-- A container summary as consumed by the sweep code: ID, names, and the
label map, all as rune lists. Go map lookup with its empty-string default
is modelled over an association list. -/
structure ContainerSummary where
  id : List Char
  names : List (List Char)
  labels : List (List Char × List Char)
deriving DecidableEq

/-- Go map indexing c.Labels with its zero-value default. -/
def labelGet (ls : List (List Char × List Char)) (k : List Char) : List Char :=
  match ls.find? (fun e => e.1 == k) with
  | some e => e.2
  | none => []

/-- isOwnedContainer: the container carries odoo-manager.managed=true and
its odoo-manager.project-id is in the known set. -/
def isOwnedContainer (c : ContainerSummary) (knownProjectIDs : List (List Char)) :
    Bool :=
  if labelGet c.labels ("odoo-manager.managed".toList) != "true".toList then false
  else knownProjectIDs.contains (labelGet c.labels ("odoo-manager.project-id".toList))

/-- containerDisplayName: first name with the leading slash trimmed, else
the ID truncated to 12 characters. -/
def containerDisplayName (c : ContainerSummary) : List Char :=
  match c.names with
  | n :: _ => if goStartsWith n ("/".toList) then n.drop 1 else n
  | [] => c.id.take 12

/-- Manager.ListOrphanedContainers: every container of the full daemon
listing that is not owned; no label filter is applied to the listing. -/
def ListOrphanedContainers (allContainers : List ContainerSummary)
    (knownProjectIDs : List (List Char)) : List (List Char) :=
  (allContainers.filter (fun c => !isOwnedContainer c knownProjectIDs)).map
    containerDisplayName

/-- Result slices of a cleanup run (error strings abbreviated to the
display name). -/
structure CleanupResult where
  removed : List (List Char)
  errors : List (List Char)
deriving DecidableEq

/-- Manager.CleanOrphanedContainers: force-remove every container of the
full daemon listing that is not owned; removeOk tells whether the
daemon-side ContainerRemove call succeeds. -/
def CleanOrphanedContainers (allContainers : List ContainerSummary)
    (knownProjectIDs : List (List Char)) (removeOk : ContainerSummary → Bool) :
    CleanupResult :=
  allContainers.foldl
    (fun acc c =>
      if isOwnedContainer c knownProjectIDs then acc
      else if removeOk c then
        { acc with removed := acc.removed ++ [containerDisplayName c] }
      else
        { acc with errors := acc.errors ++ [containerDisplayName c] })
    ⟨[], []⟩

/-! ## odoo.conf addons_path editor (internal/docker) -/

/-- The trimmed value pieces kept by the loop body of
updateOdooConfigAddonPath: split the value on commas, trim each piece,
drop empties and every piece equal to addonPath. -/
def cleanedEntries (value addonPath : List Char) : List (List Char) :=
  ((splitOnChar ',' value).map goTrimSpace).filter
    (fun p => !p.isEmpty && p != addonPath)

/-- The line scan of updateOdooConfigAddonPath: walk the lines; on the
first line whose trimmed form starts with addons_path and splits on an
equals sign, rewrite it and stop; a prefix match without an equals sign
only marks found. Returns the new lines and the found flag. -/
def updateLines (addonPath : List Char) (enable : Bool) :
    List (List Char) → List (List Char) × Bool
  | [] => ([], false)
  | l :: ls =>
    let trimmed := goTrimSpace l
    if goStartsWith trimmed ("addons_path".toList) then
      match splitN2 '=' trimmed with
      | none =>
        let r := updateLines addonPath enable ls
        (l :: r.1, true)
      | some pr =>
        let cleaned := cleanedEntries pr.2 addonPath
        let cleaned2 := if enable then cleaned ++ [addonPath] else cleaned
        (("addons_path = ".toList ++ joinSep (", ".toList) cleaned2) :: ls, true)
    else
      let r := updateLines addonPath enable ls
      (l :: r.1, r.2)

/-- Manager.updateOdooConfigAddonPath on the file content: split on
newlines, run the scan, append a fresh addons_path line when none was
found and enable is set, and re-join. -/
def updateOdooConfigAddonPath (content addonPath : List Char) (enable : Bool) :
    List Char :=
  let r := updateLines addonPath enable (splitOnChar '\n' content)
  let lines2 :=
    if !r.2 && enable then r.1 ++ ["addons_path = ".toList ++ addonPath]
    else r.1
  joinSep (['\n']) lines2

/-- Whether a line is an addons_path line in the sense of the scan. -/
def isAddonsLine (l : List Char) : Bool :=
  goStartsWith (goTrimSpace l) ("addons_path".toList)

/-- The comma-separated trimmed entries of the value of a line, empty when
the trimmed line does not split on an equals sign. -/
def lineEntries (l : List Char) : List (List Char) :=
  match splitN2 '=' (goTrimSpace l) with
  | none => []
  | some pr => (splitOnChar ',' pr.2).map goTrimSpace

/-- How many addons_path entries of the file equal the given path. -/
def addonsPathCount (p : List Char) (content : List Char) : Nat :=
  (((splitOnChar '\n' content).filter isAddonsLine).map
    (fun l => (lineEntries l).count p)).sum

/-! ## Handler effects (internal/handlers)

Store writes and EventHub publishes, in program order. -/

inductive TAct where
  | write (status : String)
  | pubStatus (status : String)
  | pubPending (verb : String)
  | pubCreated
  | pubDeleted
  | pubBackupPending
  | pubBackupDone
deriving DecidableEq

/-- gitops.ValidateRepoURL: https scheme and .git suffix. -/
def ValidateRepoURL (url : String) : Bool :=
  url.startsWith "https://" && url.endsWith ".git"

inductive PostResp where
  | conflictName
  | conflictPort
  | badRequest
  | created (p : Project)
  | serverError
deriving DecidableEq

/-- POST /api/projects (handleAPIProjects): uniqueness pre-checks, git URL
validation and accessibility probe when a repo URL is supplied, then the
store insert with status creating, the project_created publish and 201.
The decoded request body, the generated uuid and the accessibility answer
are inputs. -/
def handleAPIProjectsPost (now : Nat) (st : List Project) (body : Project)
    (newID : String) (repoAccessible : Bool) :
    PostResp × List Project × List TAct :=
  let p := { body with id := newID, status := "creating" }
  let proceed : PostResp × List Project × List TAct :=
    match storeCreate now st p with
    | .error _ => (.serverError, st, [])
    | .ok st2 => (.created p, st2, [.pubCreated])
  if NameExists st body.name then (.conflictName, st, [])
  else if PortExists st body.port then (.conflictPort, st, [])
  else if body.gitRepoURL != "" then
    if !ValidateRepoURL body.gitRepoURL then (.badRequest, st, [])
    else if !repoAccessible then (.badRequest, st, [])
    else proceed
  else proceed

inductive PutResp where
  | putOk (p : Project)
  | serverError
deriving DecidableEq

/-- PUT /api/projects/id (handleAPIProject): decode the body into a fresh
Project, overwrite its ID with the path id, store.Update it, and echo the
decoded project back. Fields the body omits keep their Go zero value. -/
def handleAPIProjectPut (now : Nat) (st : List Project) (id : String)
    (body : Project) : PutResp × List Project :=
  let p := { body with id := id }
  match storeUpdate now st p with
  | .error _ => (.serverError, st)
  | .ok st2 => (.putOk p, st2)

/-- GET /api/settings (handleSettings): the github_pat field of the JSON
body is a mask of the stored PAT (empty for an empty PAT, four asterisks
for up to eight characters, first four plus dots plus last four beyond),
next to the stored validity flag. -/
def maskPat (pat : List Char) : List Char :=
  if pat.isEmpty then []
  else if 8 < pat.length then
    pat.take 4 ++ "...".toList ++ pat.drop (pat.length - 4)
  else "****".toList

/-- The two string fields of the GET /api/settings response body. -/
def handleSettingsGet (storedPat storedValid : List Char) :
    List Char × List Char :=
  (maskPat storedPat, storedValid)

/-! ## Background lifecycle tasks

Each goroutine body is modelled as the list of store writes and publishes
it performs, indexed by the branch taken: whether the initial store.Get
finds the project, whether the Docker manager is available, and whether
the Docker/git phase succeeds, fails with an error, or panics. A task
whose source has a deferred recover turns the panic branch into its
recovery actions; a task without one lets the panic escape. -/

inductive GoOutcome where
  | ok
  | failed
  | panicked
deriving DecidableEq

/-- createProjectContainers: recover re-reads the project (getOk2) and
drives the failure path; docker-nil and create-error also fail; success
persists stopped. -/
def createTrace (getOk dockerAvail : Bool) (res : GoOutcome) (getOk2 : Bool) :
    List TAct :=
  if !getOk then []
  else
    .pubPending "creating" ::
      (if !dockerAvail then [.write "error", .pubStatus "error"]
       else
        match res with
        | .panicked => if getOk2 then [.write "error", .pubStatus "error"] else []
        | .failed => [.write "error", .pubStatus "error"]
        | .ok => [.write "stopped", .pubStatus "stopped"])

/-- startProjectContainers (the pending publish happens in the HTTP
phase): recover drives the failure path; success persists running. -/
def startTrace (getOk : Bool) (res : GoOutcome) (getOk2 : Bool) : List TAct :=
  if !getOk then []
  else
    match res with
    | .panicked => if getOk2 then [.write "error", .pubStatus "error"] else []
    | .failed => [.write "error", .pubStatus "error"]
    | .ok => [.write "running", .pubStatus "running"]

/-- stopProjectContainers has no deferred recover: the panic branch
performs no store write and no publish before escaping. -/
def stopTrace (getOk : Bool) (res : GoOutcome) : List TAct :=
  if !getOk then []
  else
    match res with
    | .panicked => []
    | .failed => [.write "error", .pubStatus "error"]
    | .ok => [.write "stopped", .pubStatus "stopped"]

/-- The goroutine of handleUpdateOdoo: recover and the update-error branch
persist error; success persists the status GetProjectStatus reports. -/
def updateOdooTrace (res : GoOutcome) (statusAfter : String) : List TAct :=
  match res with
  | .panicked => [.write "error", .pubStatus "error"]
  | .failed => [.write "error", .pubStatus "error"]
  | .ok => [.write statusAfter, .pubStatus statusAfter]

/-- The goroutine of handleUpdateRepos: recover persists error; the
pull-failed and the success branches both persist the status
GetProjectStatus reports at their point. -/
def updateReposTrace (panicked pullOk : Bool) (s1 s2 : String) : List TAct :=
  if panicked then [.write "error", .pubStatus "error"]
  else if !pullOk then [.write s1, .pubStatus s1]
  else [.write s2, .pubStatus s2]

/-- The goroutine of handleRestartOdoo: recover only logs; the normal path
persists the reported status and publishes it. -/
def restartOdooTrace (panicked : Bool) (s : String) : List TAct :=
  if panicked then [] else [.write s, .pubStatus s]

/-- deleteProject publishes project_deleted after the store delete; it has
no deferred recover. -/
def deleteTrace (panicked deleteOk : Bool) : List TAct :=
  if panicked then [] else if !deleteOk then [] else [.pubDeleted]

/-- Whether a goroutine run ends by escaping with a panic or by finishing
with the given effects. -/
inductive RunResult where
  | escaped
  | finished (actions : List TAct)
deriving DecidableEq

def createProjectContainersRun (getOk dockerAvail : Bool) (res : GoOutcome)
    (getOk2 : Bool) : RunResult :=
  .finished (createTrace getOk dockerAvail res getOk2)

def startProjectContainersRun (getOk : Bool) (res : GoOutcome)
    (getOk2 : Bool) : RunResult :=
  .finished (startTrace getOk res getOk2)

/-- stopProjectContainers: no recover, so a panic in StopProject or in the
store calls escapes the goroutine. -/
def stopProjectContainersRun (getOk : Bool) (res : GoOutcome) : RunResult :=
  if !getOk then .finished []
  else
    match res with
    | .panicked => .escaped
    | _ => .finished (stopTrace getOk res)

/-- deleteProject: no recover either. -/
def deleteProjectRun (panicked deleteOk : Bool) : RunResult :=
  if panicked then .escaped else .finished (deleteTrace false deleteOk)

def handleUpdateOdooRun (res : GoOutcome) (statusAfter : String) : RunResult :=
  .finished (updateOdooTrace res statusAfter)

def handleUpdateReposRun (panicked pullOk : Bool) (s1 s2 : String) : RunResult :=
  .finished (updateReposTrace panicked pullOk s1 s2)

def handleRestartOdooRun (panicked : Bool) (s : String) : RunResult :=
  .finished (restartOdooTrace panicked s)

/-- Checks that every project_status_changed publish of a trace is
preceded by a store write of the same status (the statuses written so far
accumulate in seen). -/
def statusWriteSeen (seen : List String) : List TAct → Bool
  | [] => true
  | .write s :: r => statusWriteSeen (s :: seen) r
  | .pubStatus s :: r => seen.contains s && statusWriteSeen seen r
  | _ :: r => statusWriteSeen seen r

/-! ## Backup single-flight (handleBackupProject) -/

inductive BackupResp where
  | conflictNotRunning
  | conflictInProgress
  | streamed (bodyOk : Bool)
deriving DecidableEq

/-- One handler execution: the response, the in-progress set while the
backup body runs, the set after the deferred cleanup, and the published
events. -/
structure BackupRun where
  resp : BackupResp
  during : List String
  final : List String
  events : List TAct
deriving DecidableEq

/-- handleBackupProject: 409 when the reconciled status is not running,
409 when the id is already in the in-progress set, otherwise insert the
id, publish backup-pending, run the body (bodyOk abstracts its outcome),
and let the deferred cleanup remove the id and publish backup-done on
every exit. -/
def handleBackupProject (id reconciled : String) (st : List String)
    (bodyOk : Bool) : BackupRun :=
  if reconciled != "running" then ⟨.conflictNotRunning, st, st, []⟩
  else if st.contains id then ⟨.conflictInProgress, st, st, []⟩
  else
    let stIn := id :: st
    ⟨.streamed bodyOk, stIn, stIn.erase id, [.pubBackupPending, .pubBackupDone]⟩

/-- The two mutex-protected critical sections of handleBackupProject, as
atomic steps of a concurrent system: enter checks and inserts in one
step, leave removes. The state is the pair of the backupsRunning set and
the multiset of handler instances currently between the two sections. -/
inductive BOp where
  | enter (id : String)
  | leave (id : String)

def stepB (s : List String × List String) : BOp → List String × List String
  | .enter id => if id ∈ s.1 then s else (id :: s.1, id :: s.2)
  | .leave id => if id ∈ s.2 then (s.1.erase id, s.2.erase id) else s

/-- All interleavings start from an empty set with no active backup. -/
def runB (ops : List BOp) : List String × List String :=
  ops.foldl stepB ([], [])

/-- Invariant of the backup system: both components are duplicate-free
and every active instance holds a slot in the set. -/
def InvB (s : List String × List String) : Prop :=
  s.1.Nodup ∧ s.2.Nodup ∧ ∀ x, x ∈ s.2 → x ∈ s.1

/-! ## Concrete inputs used by the evidence theorems -/

/-- A container from an unrelated workload: no odoo-manager labels. -/
def strayContainer : ContainerSummary :=
  ⟨"0123456789abcdef".toList, ["/unrelated-nginx".toList], []⟩

/-- A stored project row. -/
def p0C2 : Project :=
  { zeroProject with
    id := "p1", name := "demo", odooVersion := "18.0",
    postgresVersion := "16", port := 8070, status := "stopped" }

/-- A PUT body that omits the status field: encoding/json leaves the Go
zero value, the empty string. -/
def bodyC2 : Project :=
  { zeroProject with
    name := "demo-edited", odooVersion := "18.0",
    postgresVersion := "16", port := 8070 }

/-- A POST body with port 0. -/
def bodyC8 : Project :=
  { zeroProject with
    name := "demo", odooVersion := "18.0", postgresVersion := "16", port := 0 }

/-- A POST body with port 70000. -/
def bodyC8b : Project :=
  { zeroProject with
    name := "demo2", odooVersion := "18.0", postgresVersion := "16",
    port := 70000 }

/-- Whether a POST response is the 201 created answer. -/
def isCreatedResp : PostResp → Bool
  | .created _ => true
  | _ => false

/-! ## Helper lemmas -/

theorem splitN2_fst_eq_takeWhile (c : Char) (l : List Char) :
    (match splitN2 c l with | none => l | some p => p.1)
      = l.takeWhile (fun x => !(x == c)) := by
  induction l with
  | nil => rfl
  | cons a t ih =>
    by_cases h : a = c
    · subst h
      have hv : splitN2 a (a :: t) = some ([], t) := by
        simp [splitN2]
      rw [hv]
      simp [List.takeWhile]
    · have hb : (a == c) = false := by simp [h]
      have hpred : (!(a == c)) = true := by simp [hb]
      cases hsp : splitN2 c t with
      | none =>
        have hv : splitN2 c (a :: t) = none := by
          simp [splitN2, hb, hsp]
        simp only [hsp] at ih
        rw [hv]
        simp only [List.takeWhile, hpred]
        exact congrArg (List.cons a) ih
      | some pr =>
        obtain ⟨x, y⟩ := pr
        have hv : splitN2 c (a :: t) = some (a :: x, y) := by
          simp [splitN2, hb, hsp]
        simp only [hsp] at ih
        rw [hv]
        simp only [List.takeWhile, hpred]
        exact congrArg (List.cons a) ih

theorem clampInt64_ge19 (n : Int) : 19 ≤ clampInt64 n ↔ 19 ≤ n := by
  unfold clampInt64
  rw [le_max_iff, le_min_iff]
  omega

theorem goAtoi_if19 (s : String) (A B : String) :
    (if 19 ≤ goAtoi s then A else B)
      = (if (match parseIntOpt s with
             | some n => decide (19 ≤ n)
             | none => false) = true then A else B) := by
  unfold goAtoi
  cases hp : parseIntOpt s with
  | none => simp
  | some n =>
    by_cases h19 : 19 ≤ n
    · rw [if_pos ((clampInt64_ge19 n).mpr h19)]
      simp [h19]
    · rw [if_neg (fun hc => h19 ((clampInt64_ge19 n).mp hc))]
      simp [h19]

theorem postgresImage_agrees (v pg : String) :
    postgresImage v pg = specPostgresImage v pg := by
  have h1 : (match splitN2 '.' v.toList with
      | none => v
      | some p => String.mk p.1)
      = String.mk (v.toList.takeWhile (fun x => !(x == '.'))) := by
    rw [← splitN2_fst_eq_takeWhile ('.') v.toList]
    cases splitN2 '.' v.toList <;> rfl
  simp only [postgresImage, specPostgresImage, specMajorGE19, h1]
  exact goAtoi_if19 _ _ _

theorem statusWriteSeen_write_pub (seen : List String) (s : String)
    (r : List TAct) :
    statusWriteSeen seen (.write s :: .pubStatus s :: r)
      = statusWriteSeen (s :: seen) r := by
  simp [statusWriteSeen, List.contains_cons]

theorem stepB_preserves (s : List String × List String) (op : BOp) :
    InvB s → InvB (stepB s op) := by
  rintro ⟨h1, h2, h3⟩
  cases op with
  | enter id =>
    by_cases hm : id ∈ s.1
    · simpa [stepB, hm] using ⟨h1, h2, h3⟩
    · have hid2 : id ∉ s.2 := fun hx => hm (h3 _ hx)
      have hgoal : InvB (id :: s.1, id :: s.2) := by
        refine ⟨List.nodup_cons.mpr ⟨hm, h1⟩, List.nodup_cons.mpr ⟨hid2, h2⟩, ?_⟩
        intro x hx
        rcases List.mem_cons.mp hx with hx | hx
        · exact List.mem_cons.mpr (Or.inl hx)
        · exact List.mem_cons.mpr (Or.inr (h3 _ hx))
      simpa [stepB, hm] using hgoal
  | leave id =>
    by_cases hm : id ∈ s.2
    · have hgoal : InvB (s.1.erase id, s.2.erase id) := by
        refine ⟨h1.erase id, h2.erase id, ?_⟩
        intro x hx
        have hx2 := h2.mem_erase_iff.mp hx
        exact (List.mem_erase_of_ne hx2.1).mpr (h3 _ hx2.2)
      simpa [stepB, hm] using hgoal
    · simpa [stepB, hm] using ⟨h1, h2, h3⟩

theorem foldl_stepB_inv (ops : List BOp) :
    ∀ s : List String × List String, InvB s → InvB (ops.foldl stepB s) := by
  induction ops with
  | nil => intro s hs; exact hs
  | cons op rest ih =>
    intro s hs
    exact ih _ (stepB_preserves s op hs)

theorem runB_inv (ops : List BOp) : InvB (runB ops) := by
  unfold runB
  exact foldl_stepB_inv ops ([], []) ⟨List.nodup_nil, List.nodup_nil, by simp⟩

/-! ## Claim theorems -/

/-- C3: ReconcileStatus keeps a transient stored status unchanged and
otherwise reports GetProjectStatus, which maps a not-found inspect to
stopped, a running container to running, a non-running container to
stopped, and any other inspect error to error — exactly the contract the
specification states. -/
theorem ReconcileStatus_matches_spec :
    (∀ (stored : String) (r : InspectResult),
        ReconcileStatus stored r = specReconcileStatus stored r) ∧
    GetProjectStatus .notFound = ("stopped", false) ∧
    (∀ b, GetProjectStatus (.ok b) = (if b then "running" else "stopped", false)) ∧
    GetProjectStatus .otherError = ("error", true) := by
  refine ⟨?_, rfl, ?_, rfl⟩
  · intro stored r
    unfold ReconcileStatus specReconcileStatus
    split
    · rfl
    · cases r with
      | notFound => rfl
      | otherError => rfl
      | ok b => cases b <;> rfl
  · intro b
    cases b <;> rfl

/-- C10: in CreateProject and StartProject the postgres container image is
the pgvector image exactly when the major component of odoo_version (the
substring before the first dot, parsed as an integer) is at least 19, and
the stock postgres image otherwise. -/
theorem postgres_image_selection :
    ∀ p : Project,
      CreateProjectPostgresImage p
          = specPostgresImage p.odooVersion p.postgresVersion ∧
      StartProjectPostgresImage p
          = specPostgresImage p.odooVersion p.postgresVersion := by
  intro p
  exact ⟨postgresImage_agrees p.odooVersion p.postgresVersion,
         postgresImage_agrees p.odooVersion p.postgresVersion⟩

/-- C1: contrary to the claim, the container sweep selects a container
that lacks the odoo-manager.managed=true label: a fully unlabelled
container is listed as orphaned and removed by the cleanup. -/
theorem sweep_removes_unmanaged_container :
    labelGet strayContainer.labels ("odoo-manager.managed".toList)
        ≠ "true".toList ∧
    ListOrphanedContainers [strayContainer] [] = ["unrelated-nginx".toList] ∧
    (CleanOrphanedContainers [strayContainer] [] (fun _ => true)).removed
      = ["unrelated-nginx".toList] := by
  decide

/-- C2: contrary to the claim, a PUT /api/projects/id whose body omits
the status field persists the empty string — a value outside the
enumerated status set — and echoes it to the consumer. -/
theorem put_persists_status_outside_enumeration :
    (handleAPIProjectPut 2 ([p0C2]) ("p1") bodyC2).1
        = .putOk ({ bodyC2 with id := "p1" }) ∧
    ((handleAPIProjectPut 2 ([p0C2]) ("p1") bodyC2).2.map Project.status)
        = ([""]) ∧
    validStatus ("") = false := by
  decide

/-- C8: contrary to the claim, a POST /api/projects whose port is outside
1..65535 (0 and 70000 are tried) is answered with 201 created and the
project is inserted into the store. -/
theorem post_accepts_out_of_range_port :
    (¬ (1 ≤ bodyC8.port ∧ bodyC8.port ≤ 65535)) ∧
    isCreatedResp (handleAPIProjectsPost 5 [] bodyC8 ("id-1") true).1 = true ∧
    ((handleAPIProjectsPost 5 [] bodyC8 ("id-1") true).2.1.map Project.port)
        = [0] ∧
    (¬ (1 ≤ bodyC8b.port ∧ bodyC8b.port ≤ 65535)) ∧
    isCreatedResp (handleAPIProjectsPost 5 [] bodyC8b ("id-2") true).1 = true ∧
    ((handleAPIProjectsPost 5 [] bodyC8b ("id-2") true).2.1.map Project.port)
        = [70000] := by
  decide

/-- C4: contrary to the claim, the stop and delete goroutines have no
deferred recover, so a panic raised inside them escapes; the create and
start goroutines do recover every panic. -/
theorem stop_goroutine_panic_escapes :
    stopProjectContainersRun true .panicked = .escaped ∧
    deleteProjectRun true true = .escaped ∧
    (∀ g d r g2, createProjectContainersRun g d r g2 ≠ .escaped) ∧
    (∀ g r g2, startProjectContainersRun g r g2 ≠ .escaped) := by
  refine ⟨rfl, rfl, ?_, ?_⟩
  · exact fun _ _ _ _ h => RunResult.noConfusion h
  · exact fun _ _ _ h => RunResult.noConfusion h

/-- C6: on every execution path of every background task, a
project_status_changed publish carrying status X comes after the store
write that records X, including the paths where the store write returns
an error (the write still happens before the publish). -/
theorem status_changed_follows_store_write :
    (∀ g d r g2, statusWriteSeen [] (createTrace g d r g2) = true) ∧
    (∀ g r g2, statusWriteSeen [] (startTrace g r g2) = true) ∧
    (∀ g r, statusWriteSeen [] (stopTrace g r) = true) ∧
    (∀ r s, statusWriteSeen [] (updateOdooTrace r s) = true) ∧
    (∀ p q s1 s2, statusWriteSeen [] (updateReposTrace p q s1 s2) = true) ∧
    (∀ p s, statusWriteSeen [] (restartOdooTrace p s) = true) ∧
    (∀ p d, statusWriteSeen [] (deleteTrace p d) = true) := by
  refine ⟨?_, ?_, ?_, ?_, ?_, ?_, ?_⟩
  · intro g d r g2
    cases g <;> cases d <;> cases r <;> cases g2 <;>
      simp [createTrace, statusWriteSeen, statusWriteSeen_write_pub]
  · intro g r g2
    cases g <;> cases r <;> cases g2 <;>
      simp [startTrace, statusWriteSeen, statusWriteSeen_write_pub]
  · intro g r
    cases g <;> cases r <;>
      simp [stopTrace, statusWriteSeen, statusWriteSeen_write_pub]
  · intro r s
    cases r <;>
      simp [updateOdooTrace, statusWriteSeen_write_pub, statusWriteSeen]
  · intro p q s1 s2
    cases p <;> cases q <;>
      simp [updateReposTrace, statusWriteSeen_write_pub, statusWriteSeen]
  · intro p s
    cases p <;>
      simp [restartOdooTrace, statusWriteSeen_write_pub, statusWriteSeen]
  · intro p d
    cases p <;> cases d <;> simp [deleteTrace, statusWriteSeen]

/-- C5: handleBackup answers 409 when the reconciled status is not
running or when the id is already in the in-progress set; otherwise it
inserts the id before the backup body runs, and on every exit removes the
id and publishes project_backup_done. Across any interleaving of handler
instances, at most one backup per project id is active at any instant. -/
theorem backup_single_flight :
    (∀ (id rec : String) (st : List String) (b : Bool), rec ≠ "running" →
        handleBackupProject id rec st b = ⟨.conflictNotRunning, st, st, []⟩) ∧
    (∀ (id : String) (st : List String) (b : Bool), id ∈ st →
        handleBackupProject id ("running") st b
          = ⟨.conflictInProgress, st, st, []⟩) ∧
    (∀ (id : String) (st : List String) (b : Bool), id ∉ st →
        handleBackupProject id ("running") st b
          = ⟨.streamed b, id :: st, st, [.pubBackupPending, .pubBackupDone]⟩) ∧
    (∀ (ops : List BOp) (id : String), ((runB ops).2.count id) ≤ 1) := by
  refine ⟨?_, ?_, ?_, ?_⟩
  · intro id rec st b h
    have hb : (rec != "running") = true := by
      simpa [bne_iff_ne] using h
    simp [handleBackupProject, hb]
  · intro id st b h
    simp [handleBackupProject, h]
  · intro id st b h
    simp [handleBackupProject, h, List.erase_cons_head]
  · intro ops id
    exact List.nodup_iff_count_le_one.mp (runB_inv ops).2.1 id

/-- C5 witness: a project whose reconciled status is stopped is refused
with 409 and the in-progress set is untouched. -/
theorem backup_single_flight_witness :
    ("stopped" ≠ "running") ∧
    handleBackupProject ("p") ("stopped") [] true
      = ⟨.conflictNotRunning, [], [], []⟩ :=
  ⟨by decide, backup_single_flight.1 ("p") ("stopped") [] true (by decide)⟩

/-- C9 counterexample: for the stored 11-character PAT abcd...efgh the
mask is first-4 plus three dots plus last-4, which reproduces the PAT
verbatim, so the github_pat field of the GET /api/settings body is the
PAT itself. -/
theorem settings_mask_can_equal_pat :
    (handleSettingsGet ("abcd...efgh".toList) []).1 = "abcd...efgh".toList ∧
    ("abcd...efgh".toList : List Char) ≠ [] := by
  decide

/-- C9 amended: the github_pat field of a GET /api/settings response is
always the fixed mask of the stored PAT (empty for no PAT, four asterisks
up to eight characters, first-4 dots last-4 beyond), and for every
non-empty stored PAT containing neither a dot nor an asterisk the PAT
does not occur in that field. -/
theorem settings_pat_redaction (pat valid : List Char)
    (hne : pat ≠ []) (hdot : ('.') ∉ pat) (hstar : ('*') ∉ pat) :
    (handleSettingsGet pat valid).1 = maskPat pat ∧
    ¬ ∃ a b, a ++ pat ++ b = (handleSettingsGet pat valid).1 := by
  have hemp : pat.isEmpty = false := by
    cases pat with
    | nil => exact absurd rfl hne
    | cons c t => rfl
  refine ⟨rfl, ?_⟩
  rintro ⟨a, b, hab⟩
  have hfield : (handleSettingsGet pat valid).1 = maskPat pat := rfl
  rw [hfield] at hab
  by_cases hlen : 8 < pat.length
  · have hm : maskPat pat
        = pat.take 4 ++ "...".toList ++ pat.drop (pat.length - 4) := by
      simp [maskPat, hemp, hlen]
    have hdots : ("...".toList : List Char).count '.' = 3 := by decide
    have hcnt : 3 ≤ (maskPat pat).count '.' := by
      rw [hm]
      simp [List.count_append, hdots]
      omega
    have hlenmask : (maskPat pat).length = 11 := by
      rw [hm]
      simp [List.length_append, List.length_take, List.length_drop]
      omega
    have h0 : pat.count '.' = 0 := List.count_eq_zero.mpr hdot
    have hc := congrArg (fun l => List.count '.' l) hab
    simp only [List.count_append] at hc
    have hl := congrArg List.length hab
    simp only [List.length_append] at hl
    have hca : a.count '.' ≤ a.length := List.count_le_length _ _
    have hcb : b.count '.' ≤ b.length := List.count_le_length _ _
    omega
  · have hm : maskPat pat = "****".toList := by
      simp [maskPat, hemp, hlen]
    have hstars : ("****".toList : List Char).count '*' = 4 := by decide
    have hlenmask : (maskPat pat).length = 4 := by
      rw [hm]
      decide
    have hcnt : (maskPat pat).count '*' = 4 := by
      rw [hm]
      exact hstars
    have h0 : pat.count '*' = 0 := List.count_eq_zero.mpr hstar
    have hplen : 1 ≤ pat.length := List.length_pos.mpr hne
    have hc := congrArg (fun l => List.count '*' l) hab
    simp only [List.count_append] at hc
    have hl := congrArg List.length hab
    simp only [List.length_append] at hl
    have hca : a.count '*' ≤ a.length := List.count_le_length _ _
    have hcb : b.count '*' ≤ b.length := List.count_le_length _ _
    omega

/-! ## Lemmas about trimming and splitting, for the addons_path editor -/

theorem dropTrailing_getLast? (p : Char → Bool) (l : List Char) :
    ∀ x, (dropTrailing p l).getLast? = some x → p x = false := by
  induction l with
  | nil => intro x hx; simp [dropTrailing] at hx
  | cons c cs ih =>
    intro x hx
    unfold dropTrailing at hx
    cases hr : dropTrailing p cs with
    | nil =>
      rw [hr] at hx
      by_cases hp : p c
      · simp [hp] at hx
      · simp [hp] at hx
        subst hx
        simpa using hp
    | cons d ds =>
      rw [hr] at hx
      rw [List.getLast?_cons_cons] at hx
      exact ih x (by rw [hr]; exact hx)

theorem dropTrailing_eq_self (p : Char → Bool) (l : List Char)
    (h : ∀ x, l.getLast? = some x → p x = false) : dropTrailing p l = l := by
  induction l with
  | nil => rfl
  | cons c cs ih =>
    cases cs with
    | nil =>
      have hc : p c = false := h c (by simp)
      simp [dropTrailing, hc]
    | cons d ds =>
      have hcs : dropTrailing p (d :: ds) = d :: ds := by
        apply ih
        intro x hx
        exact h x (by rw [List.getLast?_cons_cons]; exact hx)
      unfold dropTrailing
      rw [hcs]

theorem dropTrailing_head? (p : Char → Bool) (l : List Char) :
    ∀ x, (dropTrailing p l).head? = some x → l.head? = some x := by
  induction l with
  | nil => intro x hx; simp [dropTrailing] at hx
  | cons c cs _ =>
    intro x hx
    unfold dropTrailing at hx
    cases hr : dropTrailing p cs with
    | nil =>
      rw [hr] at hx
      by_cases hp : p c
      · simp [hp] at hx
      · simp [hp] at hx
        simp [hx]
    | cons d ds =>
      rw [hr] at hx
      simp at hx
      simp [hx]

theorem mem_of_mem_dropTrailing (p : Char → Bool) (l : List Char) :
    ∀ x ∈ dropTrailing p l, x ∈ l := by
  induction l with
  | nil => intro x hx; simp [dropTrailing] at hx
  | cons c cs ih =>
    intro x hx
    unfold dropTrailing at hx
    cases hr : dropTrailing p cs with
    | nil =>
      rw [hr] at hx
      by_cases hp : p c
      · simp [hp] at hx
      · simp [hp] at hx
        simp [hx]
    | cons d ds =>
      rw [hr] at hx
      rcases List.mem_cons.mp hx with hx | hx
      · simp [hx]
      · exact List.mem_cons.mpr (Or.inr (ih x (by rw [hr]; exact hx)))

theorem head?_dropWhile (p : Char → Bool) (l : List Char) :
    ∀ x, (l.dropWhile p).head? = some x → p x = false := by
  induction l with
  | nil => intro x hx; simp at hx
  | cons c cs ih =>
    intro x hx
    by_cases hp : p c
    · rw [List.dropWhile_cons] at hx
      simp [hp] at hx
      exact ih x hx
    · rw [List.dropWhile_cons] at hx
      simp [hp] at hx
      subst hx
      simpa using hp

theorem dropWhile_eq_self_of_head (p : Char → Bool) (l : List Char)
    (h : ∀ x, l.head? = some x → p x = false) : l.dropWhile p = l := by
  cases l with
  | nil => rfl
  | cons c cs =>
    have hc : p c = false := h c rfl
    simp [List.dropWhile_cons, hc]

theorem goTrimSpace_head? (m : List Char) :
    ∀ x, (goTrimSpace m).head? = some x → isGoSpace x = false := by
  intro x hx
  exact head?_dropWhile isGoSpace m x
    (dropTrailing_head? isGoSpace (m.dropWhile isGoSpace) x hx)

theorem goTrimSpace_getLast? (m : List Char) :
    ∀ x, (goTrimSpace m).getLast? = some x → isGoSpace x = false :=
  dropTrailing_getLast? isGoSpace (m.dropWhile isGoSpace)

theorem goTrimSpace_eq_self (l : List Char)
    (h1 : ∀ x, l.head? = some x → isGoSpace x = false)
    (h2 : ∀ x, l.getLast? = some x → isGoSpace x = false) :
    goTrimSpace l = l := by
  unfold goTrimSpace
  rw [dropWhile_eq_self_of_head isGoSpace l h1]
  exact dropTrailing_eq_self isGoSpace l h2

theorem goTrimSpace_idem (m : List Char) :
    goTrimSpace (goTrimSpace m) = goTrimSpace m :=
  goTrimSpace_eq_self (goTrimSpace m) (goTrimSpace_head? m) (goTrimSpace_getLast? m)

theorem goTrimSpace_space_cons (x : List Char) (h : goTrimSpace x = x) :
    goTrimSpace (' ' :: x) = x := by
  unfold goTrimSpace
  have h1 : List.dropWhile isGoSpace (' ' :: x) = List.dropWhile isGoSpace x := by
    rw [List.dropWhile_cons]
    simp [show isGoSpace ' ' = true from by decide]
  rw [h1]
  exact h

theorem mem_of_mem_goTrimSpace (m : List Char) : ∀ x ∈ goTrimSpace m, x ∈ m := by
  intro x hx
  have h1 := mem_of_mem_dropTrailing isGoSpace (m.dropWhile isGoSpace) x hx
  exact List.dropWhile_subset isGoSpace h1

theorem splitOnChar_cons (sep a : Char) (t : List Char) :
    splitOnChar sep (a :: t)
      = match splitOnChar sep t with
        | [] => [[]]
        | h :: hs => if a == sep then [] :: h :: hs else (a :: h) :: hs := rfl

theorem joinSep_cons2 (sep : List Char) (x y : List Char) (t : List (List Char)) :
    joinSep sep (x :: y :: t) = x ++ sep ++ joinSep sep (y :: t) := rfl

theorem splitOnChar_ne_nil (c : Char) (s : List Char) : splitOnChar c s ≠ [] := by
  cases s with
  | nil => simp [splitOnChar]
  | cons a t =>
    unfold splitOnChar
    cases h : splitOnChar c t with
    | nil => simp
    | cons h1 t1 => by_cases hc : a == c <;> simp [hc]

theorem sep_not_mem_splitOnChar (c : Char) (s : List Char) :
    ∀ l ∈ splitOnChar c s, c ∉ l := by
  induction s with
  | nil =>
    intro l hl
    simp [splitOnChar] at hl
    simp [hl]
  | cons a t ih =>
    intro l hl
    unfold splitOnChar at hl
    cases hr : splitOnChar c t with
    | nil => exact absurd hr (splitOnChar_ne_nil c t)
    | cons h1 t1 =>
      rw [hr] at hl
      by_cases hc : a = c
      · simp [hc] at hl
        rcases hl with hl | hl
        · simp [hl]
        · exact ih l (by rw [hr]; exact List.mem_cons.mpr hl)
      · have hcb : (a == c) = false := by simp [hc]
        simp [hcb] at hl
        rcases hl with hl | hl
        · subst hl
          intro hmem
          rcases List.mem_cons.mp hmem with h | h
          · exact hc h.symm
          · exact ih h1 (by rw [hr]; exact List.mem_cons.mpr (Or.inl rfl)) h
        · exact ih l (by rw [hr]; exact List.mem_cons.mpr (Or.inr hl))

theorem mem_of_mem_splitOnChar (c : Char) (s : List Char) :
    ∀ l ∈ splitOnChar c s, ∀ x ∈ l, x ∈ s := by
  induction s with
  | nil =>
    intro l hl x hx
    simp [splitOnChar] at hl
    subst hl
    simp at hx
  | cons a t ih =>
    intro l hl x hx
    unfold splitOnChar at hl
    cases hr : splitOnChar c t with
    | nil => exact absurd hr (splitOnChar_ne_nil c t)
    | cons h1 t1 =>
      rw [hr] at hl
      by_cases hc : a = c
      · simp [hc] at hl
        rcases hl with hl | hl
        · subst hl; simp at hx
        · exact List.mem_cons.mpr
            (Or.inr (ih l (by rw [hr]; exact List.mem_cons.mpr hl) x hx))
      · have hcb : (a == c) = false := by simp [hc]
        simp [hcb] at hl
        rcases hl with hl | hl
        · subst hl
          rcases List.mem_cons.mp hx with h | h
          · simp [h]
          · exact List.mem_cons.mpr (Or.inr
              (ih h1 (by rw [hr]; exact List.mem_cons.mpr (Or.inl rfl)) x h))
        · exact List.mem_cons.mpr (Or.inr
            (ih l (by rw [hr]; exact List.mem_cons.mpr (Or.inr hl)) x hx))

theorem splitOnChar_of_not_mem (c : Char) (s : List Char) (h : c ∉ s) :
    splitOnChar c s = [s] := by
  induction s with
  | nil => rfl
  | cons a t ih =>
    have ha : a ≠ c := fun he => h (by simp [he])
    have hab : (a == c) = false := by simp [ha]
    have ht : splitOnChar c t = [t] := ih (fun hm => h (List.mem_cons.mpr (Or.inr hm)))
    unfold splitOnChar
    rw [ht]
    simp [hab]

theorem splitOnChar_append_cons (c : Char) (x rest : List Char) (hx : c ∉ x) :
    splitOnChar c (x ++ c :: rest) = x :: splitOnChar c rest := by
  induction x with
  | nil =>
    simp only [List.nil_append]
    rw [splitOnChar_cons]
    cases hr : splitOnChar c rest with
    | nil => exact absurd hr (splitOnChar_ne_nil c rest)
    | cons h1 t1 => simp
  | cons a x1 ih =>
    have ha : a ≠ c := fun he => hx (by simp [he])
    have hab : (a == c) = false := by simp [ha]
    have hx1 : c ∉ x1 := fun hm => hx (List.mem_cons.mpr (Or.inr hm))
    have ih1 := ih hx1
    simp only [List.cons_append]
    rw [splitOnChar_cons, ih1]
    simp [hab]

theorem splitOnChar_joinSep (c : Char) (L : List (List Char)) (hne : L ≠ [])
    (h : ∀ l ∈ L, c ∉ l) : splitOnChar c (joinSep [c] L) = L := by
  induction L with
  | nil => exact absurd rfl hne
  | cons x t ih =>
    cases t with
    | nil =>
      unfold joinSep
      exact splitOnChar_of_not_mem c x (h x (by simp))
    | cons y t1 =>
      have hjoin : joinSep [c] (x :: y :: t1) = x ++ c :: joinSep [c] (y :: t1) := by
        rw [joinSep_cons2]
        simp
      rw [hjoin, splitOnChar_append_cons c x _ (h x (by simp))]
      rw [ih (by simp) (fun l hl => h l (List.mem_cons.mpr (Or.inr hl)))]

theorem splitN2_subset (c : Char) (s : List Char) :
    ∀ a b, splitN2 c s = some (a, b) → (∀ x ∈ a, x ∈ s) ∧ (∀ x ∈ b, x ∈ s) := by
  induction s with
  | nil => intro a b h; simp [splitN2] at h
  | cons d t ih =>
    intro a b h
    unfold splitN2 at h
    by_cases hd : d = c
    · simp [hd] at h
      obtain ⟨ha, hb⟩ := h
      subst ha; subst hb
      exact ⟨fun x hx => by simp at hx, fun x hx => List.mem_cons.mpr (Or.inr hx)⟩
    · have hdb : (d == c) = false := by simp [hd]
      rw [hdb] at h
      simp only [Bool.false_eq_true, if_false] at h
      cases hsp : splitN2 c t with
      | none => rw [hsp] at h; simp at h
      | some pr =>
        obtain ⟨a1, b1⟩ := pr
        rw [hsp] at h
        simp at h
        obtain ⟨ha, hb⟩ := h
        subst ha; subst hb
        obtain ⟨h1, h2⟩ := ih a1 b1 hsp
        constructor
        · intro x hx
          rcases List.mem_cons.mp hx with hx | hx
          · simp [hx]
          · exact List.mem_cons.mpr (Or.inr (h1 x hx))
        · intro x hx
          exact List.mem_cons.mpr (Or.inr (h2 x hx))

theorem splitN2_append_cons (c : Char) (x rest : List Char) (hx : c ∉ x) :
    splitN2 c (x ++ c :: rest) = some (x, rest) := by
  induction x with
  | nil =>
    simp only [List.nil_append]
    unfold splitN2
    simp
  | cons a x1 ih =>
    have ha : a ≠ c := fun he => hx (by simp [he])
    have hab : (a == c) = false := by simp [ha]
    have hx1 : c ∉ x1 := fun hm => hx (List.mem_cons.mpr (Or.inr hm))
    simp only [List.cons_append]
    unfold splitN2
    rw [ih hx1]
    simp [hab]

theorem joinSep_ne_nil (sep : List Char) (xs : List (List Char)) (h1 : xs ≠ [])
    (h2 : ∀ x ∈ xs, x ≠ []) : joinSep sep xs ≠ [] := by
  cases xs with
  | nil => exact absurd rfl h1
  | cons x t =>
    cases t with
    | nil => exact h2 x (by simp)
    | cons y t1 =>
      unfold joinSep
      intro hc
      simp [List.append_eq_nil] at hc
      exact h2 x (by simp) hc.1

theorem joinSep_getLast? (sep : List Char) (xs : List (List Char))
    (h2 : ∀ x ∈ xs, x ≠ []) :
    ∀ y, (joinSep sep xs).getLast? = some y → ∃ x ∈ xs, x.getLast? = some y := by
  induction xs with
  | nil => intro y hy; simp [joinSep] at hy
  | cons x t ih =>
    intro y hy
    cases t with
    | nil =>
      exact ⟨x, by simp, hy⟩
    | cons z t1 =>
      have hjne : joinSep sep (z :: t1) ≠ [] :=
        joinSep_ne_nil sep (z :: t1) (by simp)
          (fun w hw => h2 w (List.mem_cons.mpr (Or.inr hw)))
      unfold joinSep at hy
      rw [List.getLast?_append, List.getLast?_append] at hy
      cases hj : (joinSep sep (z :: t1)).getLast? with
      | none =>
        exact absurd (List.getLast?_eq_none_iff.mp hj) hjne
      | some w =>
        rw [hj] at hy
        simp [Option.or] at hy
        subst hy
        obtain ⟨x1, hx1, hx2⟩ :=
          ih (fun w hw => h2 w (List.mem_cons.mpr (Or.inr hw))) w hj
        exact ⟨x1, List.mem_cons.mpr (Or.inr hx1), hx2⟩

theorem mem_joinSep (sep : List Char) (xs : List (List Char)) :
    ∀ c ∈ joinSep sep xs, c ∈ sep ∨ ∃ x ∈ xs, c ∈ x := by
  induction xs with
  | nil => intro c hc; simp [joinSep] at hc
  | cons x t ih =>
    intro c hc
    cases t with
    | nil =>
      exact Or.inr ⟨x, by simp, hc⟩
    | cons y t1 =>
      unfold joinSep at hc
      rcases List.mem_append.mp hc with hc | hc
      · rcases List.mem_append.mp hc with hc | hc
        · exact Or.inr ⟨x, by simp, hc⟩
        · exact Or.inl hc
      · rcases ih c hc with h | ⟨x1, hx1, hx2⟩
        · exact Or.inl h
        · exact Or.inr ⟨x1, List.mem_cons.mpr (Or.inr hx1), hx2⟩

theorem splitOnChar_space_join (xs : List (List Char))
    (hc : ∀ x ∈ xs, (',') ∉ x) (hne : xs ≠ []) :
    splitOnChar ',' (' ' :: joinSep (", ".toList) xs)
      = xs.map (fun x => ' ' :: x) := by
  induction xs with
  | nil => exact absurd rfl hne
  | cons x t ih =>
    cases t with
    | nil =>
      unfold joinSep
      have hnm : (',') ∉ (' ' :: x) := by
        intro hm
        rcases List.mem_cons.mp hm with h | h
        · exact absurd h.symm (by decide)
        · exact hc x (by simp) h
      rw [splitOnChar_of_not_mem (',') (' ' :: x) hnm]
      simp
    | cons y t1 =>
      have hsep : (", ".toList : List Char) = [',', ' '] := by decide
      have hstep : (' ' :: joinSep (", ".toList) (x :: y :: t1))
          = (' ' :: x) ++ (',') :: (' ' :: joinSep (", ".toList) (y :: t1)) := by
        rw [joinSep_cons2, hsep]
        simp
      have hnm : (',') ∉ (' ' :: x) := by
        intro hm
        rcases List.mem_cons.mp hm with h | h
        · exact absurd h.symm (by decide)
        · exact hc x (by simp) h
      rw [hstep, splitOnChar_append_cons (',') _ _ hnm]
      rw [ih (fun w hw => hc w (List.mem_cons.mpr (Or.inr hw))) (by simp)]
      simp

theorem goStartsWith_append (k x : List Char) : goStartsWith (k ++ x) k = true := by
  induction k with
  | nil => cases x <;> rfl
  | cons c k1 ih =>
    simp only [List.cons_append]
    unfold goStartsWith
    simp [ih]

theorem updateLines_cons (p : List Char) (e : Bool) (l : List Char)
    (ls : List (List Char)) :
    updateLines p e (l :: ls)
      = (let trimmed := goTrimSpace l
         if goStartsWith trimmed ("addons_path".toList) then
           match splitN2 '=' trimmed with
           | none =>
             let r := updateLines p e ls
             (l :: r.1, true)
           | some pr =>
             let cleaned := cleanedEntries pr.2 p
             let cleaned2 := if e then cleaned ++ [p] else cleaned
             (("addons_path = ".toList ++ joinSep (", ".toList) cleaned2) :: ls,
              true)
         else
           let r := updateLines p e ls
           (l :: r.1, r.2)) := rfl

theorem updateLines_no_match (p : List Char) (e : Bool) (ls : List (List Char))
    (h : ∀ l ∈ ls, isAddonsLine l = false) : updateLines p e ls = (ls, false) := by
  induction ls with
  | nil => rfl
  | cons l t ih =>
    have hl : goStartsWith (goTrimSpace l) ("addons_path".toList) = false := by
      have := h l (by simp)
      simpa [isAddonsLine] using this
    rw [updateLines_cons]
    simp only [hl, Bool.false_eq_true, if_false]
    rw [ih (fun x hx => h x (List.mem_cons.mpr (Or.inr hx)))]

theorem updateLines_found (p : List Char) (e : Bool) (as : List (List Char))
    (al : List Char) (bs : List (List Char))
    (ha : ∀ l ∈ as, isAddonsLine l = false)
    (hal : isAddonsLine al = true)
    (k v : List Char) (hsp : splitN2 '=' (goTrimSpace al) = some (k, v)) :
    updateLines p e (as ++ al :: bs)
      = (as ++ ("addons_path = ".toList
            ++ joinSep (", ".toList)
              (if e then cleanedEntries v p ++ [p] else cleanedEntries v p)) :: bs,
         true) := by
  induction as with
  | nil =>
    simp only [List.nil_append]
    rw [updateLines_cons]
    have hal2 : goStartsWith (goTrimSpace al) ("addons_path".toList) = true := by
      simpa [isAddonsLine] using hal
    simp at hal2
    simp [hal2, hsp]
  | cons a as1 ih =>
    have haf : goStartsWith (goTrimSpace a) ("addons_path".toList) = false := by
      have := ha a (by simp)
      simpa [isAddonsLine] using this
    simp only [List.cons_append]
    rw [updateLines_cons]
    simp only [haf, Bool.false_eq_true, if_false]
    rw [ih (fun l hl => ha l (List.mem_cons.mpr (Or.inr hl)))]

theorem addons_decompose (ls : List (List Char))
    (h : ls.countP (fun l => isAddonsLine l) ≤ 1) :
    (∀ l ∈ ls, isAddonsLine l = false) ∨
      ∃ as al bs, ls = as ++ al :: bs ∧ (∀ l ∈ as, isAddonsLine l = false) ∧
        isAddonsLine al = true ∧ ∀ l ∈ bs, isAddonsLine l = false := by
  induction ls with
  | nil => exact Or.inl (fun l hl => absurd hl (List.not_mem_nil l))
  | cons l t ih =>
    by_cases hl : isAddonsLine l = true
    · right
      have hcount : t.countP (fun l => isAddonsLine l) = 0 := by
        rw [List.countP_cons_of_pos _ _ (by simpa using hl)] at h
        omega
      refine ⟨[], l, t, by simp, by simp, hl, ?_⟩
      intro x hx
      have hx2 := List.countP_eq_zero.mp hcount x hx
      simpa using hx2
    · have hlf : isAddonsLine l = false := Bool.eq_false_iff.mpr hl
      have h2 : t.countP (fun l => isAddonsLine l) ≤ 1 := by
        rw [List.countP_cons_of_neg _ _ (by simpa using hl)] at h
        exact h
      rcases ih h2 with hP | ⟨as, al, bs, heq2, h1, h2', h3⟩
      · left
        intro x hx
        rcases List.mem_cons.mp hx with hx | hx
        · rw [hx]; exact hlf
        · exact hP x hx
      · right
        refine ⟨l :: as, al, bs, by rw [heq2]; rfl, ?_, h2', h3⟩
        intro x hx
        rcases List.mem_cons.mp hx with hx | hx
        · rw [hx]; exact hlf
        · exact h1 x hx

theorem lineEntries_addons_nil :
    lineEntries ("addons_path = ".toList ++ joinSep (", ".toList) []) = [[]] := by
  decide

theorem isAddonsLine_addons_nil :
    isAddonsLine ("addons_path = ".toList ++ joinSep (", ".toList) []) = true := by
  decide

theorem trimmed_line_eq (J : List Char) (hJne : J ≠ [])
    (hJ : ∀ y, J.getLast? = some y → isGoSpace y = false) :
    goTrimSpace ("addons_path = ".toList ++ J) = "addons_path = ".toList ++ J := by
  apply goTrimSpace_eq_self
  · intro x hx
    have hlit : ("addons_path = ".toList : List Char)
        = 'a' :: "ddons_path = ".toList := by decide
    rw [hlit, List.cons_append] at hx
    simp at hx
    rw [← hx]
    decide
  · intro x hx
    rw [List.getLast?_append] at hx
    cases hj : J.getLast? with
    | none => exact absurd (List.getLast?_eq_none_iff.mp hj) hJne
    | some w =>
      rw [hj] at hx
      simp [Option.or] at hx
      rw [← hx]
      exact hJ w hj

theorem isAddonsLine_addons (J : List Char) (hJne : J ≠ [])
    (hJ : ∀ y, J.getLast? = some y → isGoSpace y = false) :
    isAddonsLine ("addons_path = ".toList ++ J) = true := by
  unfold isAddonsLine
  rw [trimmed_line_eq J hJne hJ]
  have hlit : ("addons_path = ".toList : List Char)
      = "addons_path".toList ++ " = ".toList := by decide
  rw [hlit, List.append_assoc]
  exact goStartsWith_append _ _

theorem lineEntries_addons_cons (xs : List (List Char)) (hxs : xs ≠ [])
    (htr : ∀ x ∈ xs, goTrimSpace x = x) (hne : ∀ x ∈ xs, x ≠ [])
    (hcm : ∀ x ∈ xs, (',') ∉ x) :
    lineEntries ("addons_path = ".toList ++ joinSep (", ".toList) xs) = xs := by
  have hJne : joinSep (", ".toList) xs ≠ [] := joinSep_ne_nil _ xs hxs hne
  have hJlast : ∀ y, (joinSep (", ".toList) xs).getLast? = some y →
      isGoSpace y = false := by
    intro y hy
    obtain ⟨x, hx, hxl⟩ := joinSep_getLast? _ xs hne y hy
    exact goTrimSpace_getLast? x y (by rw [htr x hx]; exact hxl)
  unfold lineEntries
  rw [trimmed_line_eq _ hJne hJlast]
  have hline : ("addons_path = ".toList ++ joinSep (", ".toList) xs)
      = "addons_path ".toList ++ ('=') :: (' ' :: joinSep (", ".toList) xs) := by
    have hlit : ("addons_path = ".toList : List Char)
        = "addons_path ".toList ++ ('=') :: [' '] := by decide
    rw [hlit]
    simp
  rw [hline, splitN2_append_cons ('=') _ _ (by decide)]
  simp only []
  rw [splitOnChar_space_join xs hcm hxs, List.map_map]
  have hcg : ∀ x ∈ xs, (goTrimSpace ∘ fun x => ' ' :: x) x = id x := by
    intro x hx
    simp only [Function.comp, id]
    exact goTrimSpace_space_cons x (htr x hx)
  rw [List.map_congr_left hcg, List.map_id]

theorem filter_addons_single (as bs : List (List Char)) (nl : List Char)
    (has : ∀ l ∈ as, isAddonsLine l = false)
    (hbs : ∀ l ∈ bs, isAddonsLine l = false)
    (hnl : isAddonsLine nl = true) :
    (as ++ nl :: bs).filter isAddonsLine = [nl] := by
  have h1 : as.filter isAddonsLine = [] :=
    List.filter_eq_nil_iff.mpr (fun a ha => by simp [has a ha])
  have h2 : bs.filter isAddonsLine = [] :=
    List.filter_eq_nil_iff.mpr (fun a ha => by simp [hbs a ha])
  rw [List.filter_append, h1, List.filter_cons_of_pos hnl, h2]
  rfl

/-- C9 witness: a 12-character token without dots or asterisks never
occurs in the github_pat field of the response. -/
theorem settings_pat_redaction_witness :
    (("ghp_abcdefgh".toList : List Char) ≠ [] ∧
      ('.') ∉ "ghp_abcdefgh".toList ∧ ('*') ∉ "ghp_abcdefgh".toList) ∧
    ¬ ∃ a b, a ++ "ghp_abcdefgh".toList ++ b
        = (handleSettingsGet ("ghp_abcdefgh".toList) []).1 :=
  ⟨by decide,
   (settings_pat_redaction ("ghp_abcdefgh".toList) [] (by decide) (by decide)
     (by decide)).2⟩

/-- C7 counterexample: on a file with two addons_path lines, disabling a
path rewrites only the first line, so the path still occurs once
afterwards, not zero times as the claim states for every file content. -/
theorem updateOdooConfigAddonPath_two_lines :
    addonsPathCount ("/mnt/a".toList)
      (updateOdooConfigAddonPath
        ("addons_path = /mnt/a\naddons_path = /mnt/a".toList)
        ("/mnt/a".toList) false) = 1 := by
  decide

/-- C7 amended: for every file content holding at most one line whose
trimmed form starts with addons_path, each such line containing an equals
sign, and every nonempty trimmed path without commas or newlines: after
enable the addons_path entries contain the path exactly once (a fresh
line is appended when none exists), after disable zero times, and every
line that is not an addons_path line is byte-identical at its position. -/
theorem updateOdooConfigAddonPath_amended (content addonPath : List Char)
    (hcount : (splitOnChar '\n' content).countP (fun l => isAddonsLine l) ≤ 1)
    (heq : ∀ l ∈ splitOnChar '\n' content, isAddonsLine l = true →
       (splitN2 '=' (goTrimSpace l)).isSome = true)
    (hpath1 : goTrimSpace addonPath = addonPath)
    (hpath2 : addonPath ≠ [])
    (hpath3 : (',') ∉ addonPath)
    (hpath4 : ('\n') ∉ addonPath) :
    addonsPathCount addonPath (updateOdooConfigAddonPath content addonPath true) = 1 ∧
    addonsPathCount addonPath (updateOdooConfigAddonPath content addonPath false) = 0 ∧
    (∀ (e : Bool) (j : Nat) (l : List Char),
       (splitOnChar '\n' content)[j]? = some l → isAddonsLine l = false →
       (splitOnChar '\n' (updateOdooConfigAddonPath content addonPath e))[j]?
         = some l) := by
  have hpl : ∀ y, addonPath.getLast? = some y → isGoSpace y = false :=
    fun y hy => goTrimSpace_getLast? addonPath y (by rw [hpath1]; exact hy)
  have hlinesNoNl : ∀ l ∈ splitOnChar '\n' content, ('\n') ∉ l :=
    sep_not_mem_splitOnChar '\n' content
  rcases addons_decompose (splitOnChar '\n' content) hcount with hnone |
    ⟨as, al, bs, hdecomp, has, hal, hbs⟩
  · -- no addons_path line in the file
    have hupdT : updateOdooConfigAddonPath content addonPath true
        = joinSep ['\n'] (splitOnChar '\n' content
            ++ ["addons_path = ".toList ++ addonPath]) := by
      simp only [updateOdooConfigAddonPath]
      rw [updateLines_no_match addonPath true _ hnone]
      simp
    have hupdF : updateOdooConfigAddonPath content addonPath false
        = joinSep ['\n'] (splitOnChar '\n' content) := by
      simp only [updateOdooConfigAddonPath]
      rw [updateLines_no_match addonPath false _ hnone]
      simp
    have hnl0NoNl : ('\n') ∉ ("addons_path = ".toList ++ addonPath) := by
      intro hm
      rcases List.mem_append.mp hm with hm | hm
      · exact absurd hm (by decide)
      · exact hpath4 hm
    have hrT : splitOnChar '\n' (updateOdooConfigAddonPath content addonPath true)
        = splitOnChar '\n' content ++ ["addons_path = ".toList ++ addonPath] := by
      rw [hupdT]
      apply splitOnChar_joinSep
      · intro hc
        rcases List.append_eq_nil.mp hc with ⟨h1, _⟩
        exact splitOnChar_ne_nil '\n' content h1
      · intro l hl
        rcases List.mem_append.mp hl with hl | hl
        · exact hlinesNoNl l hl
        · simp at hl
          rw [hl]
          exact hnl0NoNl
    have hrF : splitOnChar '\n' (updateOdooConfigAddonPath content addonPath false)
        = splitOnChar '\n' content := by
      rw [hupdF]
      exact splitOnChar_joinSep '\n' _ (splitOnChar_ne_nil '\n' content) hlinesNoNl
    have hnl0 : isAddonsLine ("addons_path = ".toList ++ addonPath) = true :=
      isAddonsLine_addons addonPath hpath2 hpl
    have hentries : lineEntries ("addons_path = ".toList ++ addonPath)
        = [addonPath] :=
      lineEntries_addons_cons [addonPath] (by simp)
        (fun x hx => by simp at hx; rw [hx]; exact hpath1)
        (fun x hx => by simp at hx; rw [hx]; exact hpath2)
        (fun x hx => by simp at hx; rw [hx]; exact hpath3)
    refine ⟨?_, ?_, ?_⟩
    · unfold addonsPathCount
      rw [hrT]
      have hfilter : (splitOnChar '\n' content
          ++ ("addons_path = ".toList ++ addonPath) :: []).filter isAddonsLine
          = [("addons_path = ".toList ++ addonPath)] :=
        filter_addons_single (splitOnChar '\n' content) [] _ hnone
          (fun l hl => absurd hl (List.not_mem_nil l)) hnl0
      rw [hfilter]
      simp only [List.map_cons, List.map_nil, List.sum_cons, List.sum_nil,
        Nat.add_zero]
      rw [hentries]
      simp [List.count_cons]
    · unfold addonsPathCount
      rw [hrF]
      have hfilter : (splitOnChar '\n' content).filter isAddonsLine = [] :=
        List.filter_eq_nil_iff.mpr (fun a ha => by simp [hnone a ha])
      rw [hfilter]
      rfl
    · intro e j l hj hlf
      have hjlt : j < (splitOnChar '\n' content).length := by
        rcases Nat.lt_or_ge j (splitOnChar '\n' content).length with h | h
        · exact h
        · rw [List.getElem?_eq_none h] at hj
          cases hj
      cases e with
      | true =>
        rw [hrT, List.getElem?_append_left hjlt]
        exact hj
      | false =>
        rw [hrF]
        exact hj
  · -- exactly one addons_path line al, at position as.length
    have halmem : al ∈ splitOnChar '\n' content := by
      rw [hdecomp]
      exact List.mem_append.mpr (Or.inr (List.mem_cons.mpr (Or.inl rfl)))
    obtain ⟨pr, hsp0⟩ := Option.isSome_iff_exists.mp (heq al halmem hal)
    obtain ⟨k, v⟩ := pr
    have hsp : splitN2 '=' (goTrimSpace al) = some (k, v) := hsp0
    have hclean : ∀ x ∈ cleanedEntries v addonPath,
        goTrimSpace x = x ∧ x ≠ [] ∧ (',') ∉ x ∧ ('\n') ∉ x := by
      intro x hx
      have hx1 := List.mem_filter.mp hx
      obtain ⟨piece, hpiece, hxeq⟩ := List.mem_map.mp hx1.1
      refine ⟨by rw [← hxeq]; exact goTrimSpace_idem piece, ?_, ?_, ?_⟩
      · rcases Bool.and_eq_true_iff.mp hx1.2 with ⟨h2a, _⟩
        intro hxe
        rw [hxe] at h2a
        simp at h2a
      · intro hm
        rw [← hxeq] at hm
        exact sep_not_mem_splitOnChar ',' v piece hpiece
          (mem_of_mem_goTrimSpace piece _ hm)
      · intro hm
        rw [← hxeq] at hm
        have hmv : ('\n') ∈ v :=
          mem_of_mem_splitOnChar ',' v piece hpiece _
            (mem_of_mem_goTrimSpace piece _ hm)
        have hmal : ('\n') ∈ al :=
          mem_of_mem_goTrimSpace al _
            ((splitN2_subset '=' (goTrimSpace al) k v hsp).2 _ hmv)
        exact hlinesNoNl al halmem hmal
    have hnotin : addonPath ∉ cleanedEntries v addonPath := by
      intro hm
      have h2 := (List.mem_filter.mp hm).2
      simp at h2
    have hclT : ∀ x ∈ cleanedEntries v addonPath ++ [addonPath],
        goTrimSpace x = x ∧ x ≠ [] ∧ (',') ∉ x ∧ ('\n') ∉ x := by
      intro x hx
      rcases List.mem_append.mp hx with hx | hx
      · exact hclean x hx
      · simp at hx
        rw [hx]
        exact ⟨hpath1, hpath2, hpath3, hpath4⟩
    have hnlline : ∀ cl2 : List (List Char), (∀ x ∈ cl2, ('\n') ∉ x) →
        ('\n') ∉ ("addons_path = ".toList ++ joinSep (", ".toList) cl2) := by
      intro cl2 hcl2 hm
      rcases List.mem_append.mp hm with hm | hm
      · exact absurd hm (by decide)
      · rcases mem_joinSep _ _ _ hm with hm | ⟨x, hx, hxm⟩
        · exact absurd hm (by decide)
        · exact hcl2 x hx hxm
    have hsplitJoin : ∀ cl2 : List (List Char), (∀ x ∈ cl2, ('\n') ∉ x) →
        splitOnChar '\n' (joinSep ['\n']
            (as ++ ("addons_path = ".toList ++ joinSep (", ".toList) cl2) :: bs))
          = as ++ ("addons_path = ".toList ++ joinSep (", ".toList) cl2) :: bs := by
      intro cl2 hcl2
      apply splitOnChar_joinSep
      · intro hc
        rcases List.append_eq_nil.mp hc with ⟨_, h2⟩
        simp at h2
      · intro l hl
        rcases List.mem_append.mp hl with hl | hl
        · exact hlinesNoNl l (by rw [hdecomp]; exact List.mem_append.mpr (Or.inl hl))
        · rcases List.mem_cons.mp hl with hl | hl
          · rw [hl]
            exact hnlline cl2 hcl2
          · exact hlinesNoNl l (by
              rw [hdecomp]
              exact List.mem_append.mpr (Or.inr (List.mem_cons.mpr (Or.inr hl))))
    have hupd : ∀ e : Bool, updateOdooConfigAddonPath content addonPath e
        = joinSep ['\n'] (as ++ ("addons_path = ".toList ++ joinSep (", ".toList)
            (if e then cleanedEntries v addonPath ++ [addonPath]
             else cleanedEntries v addonPath)) :: bs) := by
      intro e
      simp only [updateOdooConfigAddonPath]
      rw [hdecomp, updateLines_found addonPath e as al bs has hal k v hsp]
      simp
    have hrT : splitOnChar '\n' (updateOdooConfigAddonPath content addonPath true)
        = as ++ ("addons_path = ".toList ++ joinSep (", ".toList)
            (cleanedEntries v addonPath ++ [addonPath])) :: bs := by
      rw [hupd true]
      exact hsplitJoin _ (fun x hx => (hclT x hx).2.2.2)
    have hrF : splitOnChar '\n' (updateOdooConfigAddonPath content addonPath false)
        = as ++ ("addons_path = ".toList ++ joinSep (", ".toList)
            (cleanedEntries v addonPath)) :: bs := by
      rw [hupd false]
      exact hsplitJoin _ (fun x hx => (hclean x hx).2.2.2)
    have hnlT : isAddonsLine ("addons_path = ".toList ++ joinSep (", ".toList)
        (cleanedEntries v addonPath ++ [addonPath])) = true := by
      apply isAddonsLine_addons
      · exact joinSep_ne_nil _ _ (by simp) (fun x hx => (hclT x hx).2.1)
      · intro y hy
        obtain ⟨x, hx, hxl⟩ :=
          joinSep_getLast? _ _ (fun x hx => (hclT x hx).2.1) y hy
        exact goTrimSpace_getLast? x y (by rw [(hclT x hx).1]; exact hxl)
    have hentT : lineEntries ("addons_path = ".toList ++ joinSep (", ".toList)
        (cleanedEntries v addonPath ++ [addonPath]))
        = cleanedEntries v addonPath ++ [addonPath] :=
      lineEntries_addons_cons _ (by simp) (fun x hx => (hclT x hx).1)
        (fun x hx => (hclT x hx).2.1) (fun x hx => (hclT x hx).2.2.1)
    refine ⟨?_, ?_, ?_⟩
    · unfold addonsPathCount
      rw [hrT, filter_addons_single as bs _ has hbs hnlT]
      simp only [List.map_cons, List.map_nil, List.sum_cons, List.sum_nil,
        Nat.add_zero]
      rw [hentT, List.count_append, List.count_eq_zero.mpr hnotin]
      simp [List.count_cons]
    · unfold addonsPathCount
      rw [hrF]
      by_cases hce : cleanedEntries v addonPath = []
      · rw [hce]
        rw [filter_addons_single as bs _ has hbs isAddonsLine_addons_nil]
        have hzero : (lineEntries ("addons_path = ".toList
            ++ joinSep (", ".toList) [])).count addonPath = 0 := by
          rw [lineEntries_addons_nil, List.count_eq_zero]
          intro hm
          simp at hm
          exact hpath2 hm
        simp only [List.map_cons, List.map_nil, List.sum_cons, List.sum_nil,
          Nat.add_zero]
        exact hzero
      · have hnlF : isAddonsLine ("addons_path = ".toList
            ++ joinSep (", ".toList) (cleanedEntries v addonPath)) = true := by
          apply isAddonsLine_addons
          · exact joinSep_ne_nil _ _ hce (fun x hx => (hclean x hx).2.1)
          · intro y hy
            obtain ⟨x, hx, hxl⟩ :=
              joinSep_getLast? _ _ (fun x hx => (hclean x hx).2.1) y hy
            exact goTrimSpace_getLast? x y (by rw [(hclean x hx).1]; exact hxl)
        have hentF : lineEntries ("addons_path = ".toList
            ++ joinSep (", ".toList) (cleanedEntries v addonPath))
            = cleanedEntries v addonPath :=
          lineEntries_addons_cons _ hce (fun x hx => (hclean x hx).1)
            (fun x hx => (hclean x hx).2.1) (fun x hx => (hclean x hx).2.2.1)
        rw [filter_addons_single as bs _ has hbs hnlF]
        simp only [List.map_cons, List.map_nil, List.sum_cons, List.sum_nil,
          Nat.add_zero]
        rw [hentF]
        exact List.count_eq_zero.mpr hnotin
    · intro e j l hj hlf
      have hre : splitOnChar '\n' (updateOdooConfigAddonPath content addonPath e)
          = as ++ ("addons_path = ".toList ++ joinSep (", ".toList)
              (if e then cleanedEntries v addonPath ++ [addonPath]
               else cleanedEntries v addonPath)) :: bs := by
        cases e with
        | true => exact hrT
        | false => exact hrF
      rw [hre]
      rw [hdecomp] at hj
      by_cases hjlt : j < as.length
      · rw [List.getElem?_append_left hjlt] at hj ⊢
        exact hj
      · have hge : as.length ≤ j := le_of_not_lt hjlt
        rw [List.getElem?_append_right hge] at hj ⊢
        cases hsub : j - as.length with
        | zero =>
          rw [hsub] at hj
          simp at hj
          have : isAddonsLine al = false := by rw [hj]; exact hlf
          rw [hal] at this
          cases this
        | succ m =>
          rw [hsub] at hj
          simp only [List.getElem?_cons_succ] at hj ⊢
          exact hj

/-- C7 witness: enabling a fresh path on a two-option file yields exactly
one matching addons_path entry, and the data_dir line is untouched. -/
theorem updateOdooConfigAddonPath_amended_witness :
    ((("addons_path = /mnt/x\ndata_dir = /var/lib/odoo".toList
        |> splitOnChar '\n').countP (fun l => isAddonsLine l) ≤ 1) ∧
      goTrimSpace ("/mnt/e".toList) = "/mnt/e".toList) ∧
    addonsPathCount ("/mnt/e".toList)
      (updateOdooConfigAddonPath
        ("addons_path = /mnt/x\ndata_dir = /var/lib/odoo".toList)
        ("/mnt/e".toList) true) = 1 :=
  ⟨⟨by decide, by decide⟩,
   (updateOdooConfigAddonPath_amended
      ("addons_path = /mnt/x\ndata_dir = /var/lib/odoo".toList)
      ("/mnt/e".toList) (by decide) (by decide) (by decide) (by decide)
      (by decide) (by decide)).1⟩

end OdooManager
